import Mathlib

set_option maxRecDepth 100000

/-!
# Booker reader: formal model of the EPUB paginator and reader state

This file is a shallow embedding of the core logic of `src/pages/reader.py`
(class `ReaderPage`): text measurement (`_measure_text_height`, `_get_font`),
pagination (`_repaginate_epub`), TOC synthesis and correction
(`_generate_toc_from_headers`, `_update_toc_page_indices`), the PDF render
cache (`_render_pdf_page`), the slider mapping (`_on_slider_change`) and the
font-size controls (`_increase_font`, `_decrease_font`).

Modelling conventions:
* Python `int` is `Int`.  The float expressions of `reader.py` all have the
  shape `int(a * c / b)` or `x > y * c` with rational constant `c`; they are
  modelled exactly over `Int`: `int(p/q)` (truncation toward zero) is
  `Int.tdiv p q`, and comparisons are cross-multiplied.  Division by zero
  raises in Python while `Int.tdiv p 0 = 0`; every theorem that depends on a
  quotient carries positivity hypotheses, so the two semantics agree on all
  inputs a theorem speaks about.
* Python `str.strip()` is `pyStrip` (drops leading/trailing whitespace).
* Tkinter font objects are opaque: a font is identified by its parameters
  (family, effective point size, bold flag) and an external `FontSys` maps a
  font to its `linespace` metric and a string to its pixel `measure`, exactly
  the two calls `reader.py` makes on a `tkinter.font.Font`.
-/

/-- Resolve a Python slice endpoint `i` against a string of length `len`:
negative indices count from the end, clamped to `[0, len]`. -/
def pySliceIdx (len : Nat) (i : Int) : Nat :=
  if i < 0 then ((len : Int) + i).toNat else min i.toNat len

/-- Python `s[:i]`. -/
def pyTake (s : String) (i : Int) : String := ⟨s.data.take (pySliceIdx s.length i)⟩

/-- Python `s[i:]`. -/
def pyDrop (s : String) (i : Int) : String := ⟨s.data.drop (pySliceIdx s.length i)⟩

/-- Python `s.strip()`: remove leading and trailing whitespace. -/
def pyStrip (s : String) : String :=
  ⟨((s.data.dropWhile Char.isWhitespace).reverse.dropWhile Char.isWhitespace).reverse⟩

/-- Python `s.rfind(c)`: index of the last occurrence of `c`, or `-1`. -/
def pyRfindChar (s : String) (c : Char) : Int :=
  match s.data.reverse.findIdx? (fun x => x = c) with
  | some i => (s.length : Int) - 1 - (i : Int)
  | none => -1

/-- Python `s.count(c)` for a single character. -/
def pyCountChar (s : String) (c : Char) : Nat := s.data.count c

/-- An inline link kept on a text block (`links` list of the text dict). -/
structure Link where
  text : String
  url : String
deriving DecidableEq

/-- One structured content item, mirroring the dicts `reader.py` builds.
`text` is an extractor paragraph/header dict (has `header_level` and `links`
keys); `chunk` is a dict built by the splitting loop of `_repaginate_epub`
(only `type`/`text`/`is_header` keys, Python type tag still `'text'`);
`image` carries the decoded bitmap as an opaque id; `link` is a
standalone-link dict. -/
inductive Item where
  | text (t : String) (is_header : Bool) (header_level : Nat) (links : List Link)
  | chunk (t : String) (is_header : Bool)
  | image (img : Nat)
  | link (t : String) (url : String)
deriving DecidableEq

/-- Is this item a mid-paragraph split chunk produced by the paginator? -/
def Item.isChunk : Item → Bool
  | .chunk _ _ => true
  | _ => false

/-- Does the paginator's `'text'` branch apply to this item (Python type tag
`'text'`)? -/
def Item.isTextLike : Item → Bool
  | .text _ _ _ _ => true
  | .chunk _ _ => true
  | _ => false

/-- The identity of a `tkinter.font.Font` object as created by `_get_font`:
family, effective size, and weight (bold iff header). -/
structure FontParams where
  family : String
  size : Int
  bold : Bool
deriving DecidableEq

/-- The font object `_get_font` builds for `(font_family, font_size,
is_header)`: headers render 4pt larger and bold. -/
def mkFont (fontFamily : String) (fontSize : Int) (is_header : Bool) : FontParams :=
  ⟨fontFamily, fontSize + (if is_header then 4 else 0), is_header⟩

/-- The external font system: `linespace` is `Font.metrics('linespace')`,
`measure` is `Font.measure(text)` (both integer pixel values). -/
structure FontSys where
  linespace : FontParams → Int
  measure : FontParams → String → Int

/-- `_measure_text_height(text, font_family, font_size, width, is_header)`:
`line_height × max(int(text_pixels × 1.08 / width) + 1 (min 1), newlines + 1)`.
`int(text_pixels * 1.08 / width)` is modelled exactly as
`Int.tdiv (text_pixels * 108) (width * 100)`. -/
def measureTextHeight (F : FontSys) (text fontFamily : String)
    (fontSize width : Int) (is_header : Bool) : Int :=
  let f := mkFont fontFamily fontSize is_header
  let line_height := F.linespace f
  let text_pixels := F.measure f text
  let num_lines := max 1 (Int.tdiv (text_pixels * 108) (width * 100) + 1)
  let newline_lines := (pyCountChar text '\n' : Int) + 1
  (max num_lines newline_lines) * line_height

/-- `chars_per_line = int(wrap_width / (font_size * 0.42))`, exactly:
`Int.tdiv (wrap_width * 100) (font_size * 42)`. -/
def charsPerLine (wrapW fontSize : Int) : Int := Int.tdiv (wrapW * 100) (fontSize * 42)

/-- Mutable pagination state of `_repaginate_epub`: the pages flushed so far,
the items on the page being filled, and its accumulated pixel height. -/
structure PgState where
  pages : List (List Item)
  cur : List Item
  curH : Int
deriving DecidableEq

/-- The `while remaining_text:` splitting loop of `_repaginate_epub`
(lines 631–678), made total with explicit fuel: `none` means the fuel ran
out, i.e. the Python loop has not finished within that many iterations.
`last_space > total_chars * 0.8` is compared exactly as
`last_space * 5 > total_chars * 4`. -/
def splitLoop (F : FontSys) (availH wrapW : Int) (fontFamily : String)
    (fontSize : Int) (is_header : Bool) :
    Nat → List (List Item) → List Item → Int → String → Option PgState
  | 0, _, _, _, _ => none
  | fuel + 1, pages, cur, curH, rem =>
    if rem = "" then some ⟨pages, cur, curH⟩
    else
      let line_height := F.linespace (mkFont fontFamily fontSize is_header)
      let space_left := availH - curH
      let lines_that_fit := max 0 (Int.tdiv space_left line_height)
      if lines_that_fit < 2 ∧ cur ≠ [] then
        splitLoop F availH wrapW fontFamily fontSize is_header fuel
          (pages ++ [cur]) [] 0 rem
      else
        let total_chars := lines_that_fit * charsPerLine wrapW fontSize
        if (rem.length : Int) ≤ total_chars then
          let chunk_h := measureTextHeight F rem fontFamily fontSize wrapW is_header
          some ⟨pages, cur ++ [Item.chunk rem is_header], curH + chunk_h + 10⟩
        else
          let chunk := pyTake rem total_chars
          let last_space := pyRfindChar chunk ' '
          let split_idx :=
            if last_space * 5 > total_chars * 4 then last_space
            else total_chars
          let page_chunk := pyStrip (pyTake rem split_idx)
          let next :=
            if page_chunk ≠ "" then
              (cur ++ [Item.chunk page_chunk is_header],
               curH + measureTextHeight F page_chunk fontFamily fontSize wrapW is_header + 10)
            else (cur, curH)
          splitLoop F availH wrapW fontFamily fontSize is_header fuel
            (pages ++ [next.1]) [] 0 (pyStrip (pyDrop rem split_idx))

/-- Fuel which (we prove) suffices for `splitLoop` whenever the geometry
admits at least one line and one character per line. -/
def blockFuel (t : String) : Nat := 2 * t.length + 2

/-- Processing of one structured item by the main loop of `_repaginate_epub`:
the `'image'` branch, the fits-whole `'text'` branch, and the splitting
branch.  Items of type `'link'` match no branch and pass through. -/
def processBlock (F : FontSys) (availH wrapW : Int) (fontFamily : String)
    (fontSize : Int) (s : PgState) (item : Item) : Option PgState :=
  match item with
  | .image _ =>
    let img_h : Int := 350 + 20
    if s.curH + img_h > availH ∧ s.cur ≠ [] then
      some ⟨s.pages ++ [s.cur], [item], img_h⟩
    else
      some ⟨s.pages, s.cur ++ [item], s.curH + img_h⟩
  | .text t is_header _ _ =>
    let h := measureTextHeight F t fontFamily fontSize wrapW is_header
    if s.curH + h + 10 ≤ availH then
      some ⟨s.pages, s.cur ++ [item], s.curH + h + 10⟩
    else
      splitLoop F availH wrapW fontFamily fontSize is_header (blockFuel t)
        s.pages s.cur s.curH t
  | .chunk t is_header =>
    let h := measureTextHeight F t fontFamily fontSize wrapW is_header
    if s.curH + h + 10 ≤ availH then
      some ⟨s.pages, s.cur ++ [item], s.curH + h + 10⟩
    else
      splitLoop F availH wrapW fontFamily fontSize is_header (blockFuel t)
        s.pages s.cur s.curH t
  | .link _ _ => some s

/-- The main loop of `_repaginate_epub` over all structured content. -/
def paginateBlocks (F : FontSys) (availH wrapW : Int) (fontFamily : String)
    (fontSize : Int) : List Item → PgState → Option PgState
  | [], s => some s
  | item :: rest, s =>
    match processBlock F availH wrapW fontFamily fontSize s item with
    | none => none
    | some s' => paginateBlocks F availH wrapW fontFamily fontSize rest s'

/-- `_repaginate_epub`, as a function of the content, page geometry and font:
returns the new `(pages, total_pages)`.  On empty content the method returns
early, leaving the previous `(pages, total_pages)` (`prior`) untouched.
`none` marks divergence of the splitting loop. -/
def repaginateEpub (F : FontSys) (content : List Item) (pageWidth pageHeight : Int)
    (fontFamily : String) (fontSize : Int) (prior : List (List Item) × Nat) :
    Option (List (List Item) × Nat) :=
  if content = [] then some prior
  else
    match paginateBlocks F (pageHeight - 50) (pageWidth - 80) fontFamily fontSize
        content ⟨[], [], 0⟩ with
    | none => none
    | some s =>
      let pages := if s.cur = [] then s.pages else s.pages ++ [s.cur]
      some (pages, if pages.length = 0 then 1 else pages.length)


/-- A hierarchical TOC entry (`{title, page_index, depth, children}` dict). -/
inductive TocEntry where
  | mk (title : String) (page_index : Nat) (depth : Nat) (children : List TocEntry)

def TocEntry.title : TocEntry → String
  | .mk t _ _ _ => t

def TocEntry.page_index : TocEntry → Nat
  | .mk _ p _ _ => p

def TocEntry.depth : TocEntry → Nat
  | .mk _ _ d _ => d

def TocEntry.children : TocEntry → List TocEntry
  | .mk _ _ _ c => c

/-- Overwrite the `page_index` field of a TOC entry. -/
def TocEntry.withPage : TocEntry → Nat → TocEntry
  | .mk t _ d c, p => .mk t p d c

/-- An entry of `_generate_toc_from_headers` that is still pointed at by one
of the mutable `current_h1/h2/h3` variables, so children may still be
appended to it.  `level` records which pointer slot (1, 2 or 3) it occupies.
In the Python code such an entry is already appended, by reference, as the
last child of its parent (or last root); here the attachment is performed
when the pointer is dropped (`closeGE`). -/
structure OpenEntry where
  level : Nat
  title : String
  page_index : Nat
  depth : Nat
  children : List TocEntry

def OpenEntry.close (o : OpenEntry) : TocEntry :=
  .mk o.title o.page_index o.depth o.children

/-- Structural worker for `closeGE`; the fuel is the spine length, which
each closing step decreases by one. -/
def closeGEAux (lvl : Nat) : Nat → List OpenEntry → List TocEntry →
    List OpenEntry × List TocEntry
  | 0, spine, roots => (spine, roots)
  | fuel + 1, spine, roots =>
    match spine with
    | [] => ([], roots)
    | o :: rest =>
      if lvl ≤ o.level then
        match rest with
        | [] => ([], roots ++ [o.close])
        | p :: rest2 =>
          closeGEAux lvl fuel
            (⟨p.level, p.title, p.page_index, p.depth, p.children ++ [o.close]⟩ :: rest2)
            roots
      else (o :: rest, roots)

/-- Drop every open pointer of level `≥ lvl`, attaching each dropped entry as
the last child of the next outer open entry (or as the last root).  The spine
is ordered innermost first. -/
def closeGE (lvl : Nat) (spine : List OpenEntry) (roots : List TocEntry) :
    List OpenEntry × List TocEntry :=
  closeGEAux lvl spine.length spine roots

/-- `depth` assigned by `_generate_toc_from_headers` for a header level. -/
def tocLevelDepth (lvl : Nat) : Nat :=
  if lvl = 1 then 0 else if lvl = 2 then 1 else if lvl = 3 then 2 else 3

/-- Insert one header into the TOC under construction.  Levels 1–3 reset the
deeper `current_*` pointers and become the new pointer of their level;
levels ≥ 4 (the `else: # h4` branch) attach to the innermost open pointer
(h3, else h2, else h1) or become a root, and open no pointer. -/
def tocInsert (t : String) (page lvl : Nat) (spine : List OpenEntry)
    (roots : List TocEntry) : List OpenEntry × List TocEntry :=
  if lvl = 1 ∨ lvl = 2 ∨ lvl = 3 then
    let closed := closeGE lvl spine roots
    (⟨lvl, t, page, tocLevelDepth lvl, []⟩ :: closed.1, closed.2)
  else
    match spine with
    | [] => (spine, roots ++ [TocEntry.mk t page 3 []])
    | o :: rest =>
      (⟨o.level, o.title, o.page_index, o.depth,
        o.children ++ [TocEntry.mk t page 3 []]⟩ :: rest, roots)

/-- Fold state of `_generate_toc_from_headers`: open pointers, finished
roots, and the rough page-estimate counters. -/
structure TocGenState where
  spine : List OpenEntry
  roots : List TocEntry
  current_page : Nat
  items_on_page : Nat

/-- One iteration of the `_generate_toc_from_headers` loop: a text item with
`is_header` truthy and title shorter than 80 characters is inserted
(`header_level` read with dict default 2, hence 2 for split chunks); every
item advances the rough page estimate (`items_on_page > 8` starts a new
estimated page). -/
def tocStep (s : TocGenState) (item : Item) : TocGenState :=
  let s1 : TocGenState :=
    match item with
    | .text t true lvl _ =>
      if t.length < 80 then
        let ins := tocInsert t s.current_page lvl s.spine s.roots
        ⟨ins.1, ins.2, s.current_page, s.items_on_page⟩
      else s
    | .chunk t true =>
      if t.length < 80 then
        let ins := tocInsert t s.current_page 2 s.spine s.roots
        ⟨ins.1, ins.2, s.current_page, s.items_on_page⟩
      else s
    | _ => s
  if 8 < s1.items_on_page + 1 then ⟨s1.spine, s1.roots, s1.current_page + 1, 0⟩
  else ⟨s1.spine, s1.roots, s1.current_page, s1.items_on_page + 1⟩

/-- `_generate_toc_from_headers`: the forest of top-level TOC entries built
from the headers of the structured content (the flat `self.toc_entries` list
holds exactly the roots of this forest). -/
def generateTocFromHeaders (content : List Item) : List TocEntry :=
  let s := content.foldl tocStep ⟨[], [], 0, 0⟩
  (closeGE 1 s.spine s.roots).2

/-- Assignment `d[k] = v` on a Python dict modelled as an association list:
overwrite in place if the key exists, else append. -/
def dictInsert (m : List (String × Nat)) (k : String) (v : Nat) : List (String × Nat) :=
  if m.any (fun p => p.1 == k) then m.map (fun p => if p.1 == k then (k, v) else p)
  else m ++ [(k, v)]

/-- One item of the `header_to_page` building loop of
`_update_toc_page_indices`: header text items write their page index. -/
def headerStep (page_idx : Nat) (m : List (String × Nat)) (it : Item) :
    List (String × Nat) :=
  match it with
  | .text t true _ _ => dictInsert m t page_idx
  | .chunk t true => dictInsert m t page_idx
  | _ => m

/-- The `header_to_page` dict of `_update_toc_page_indices`: iterate pages in
order, items in order, assigning `header_to_page[text] = page_idx`. -/
def headerToPage (pages : List (List Item)) : List (String × Nat) :=
  (pages.enum).foldl (fun m pg => pg.2.foldl (headerStep pg.1) m) []

/-- `_update_toc_page_indices`: if there are entries and pages, overwrite the
`page_index` of each entry of the flat top-level list whose stripped title is
a key of `header_to_page`.  Children are not visited. -/
def updateTocPageIndices (entries : List TocEntry) (pages : List (List Item)) :
    List TocEntry :=
  if entries.isEmpty || pages.isEmpty then entries
  else
    let m := headerToPage pages
    entries.map (fun e =>
      match m.lookup (pyStrip e.title) with
      | some p => e.withPage p
      | none => e)

/-- The texts of the header blocks of one page (spec-side helper). -/
def headerTextsOfPage (p : List Item) : List String :=
  p.filterMap (fun it =>
    match it with
    | .text t true _ _ => some t
    | .chunk t true => some t
    | _ => none)

/-- The index of the last page containing a header block with text `t`
(spec-side description of what the `header_to_page` dict ends up holding). -/
def lastPageWithHeader (pages : List (List Item)) (t : String) : Option Nat :=
  ((pages.enum.filter (fun pg => decide (t ∈ headerTextsOfPage pg.2))).map Prod.fst).getLast?

/-- Key of the PDF page-render cache: `(page_index, max_width, max_height)`. -/
abbrev PdfKey := Int × Int × Int

/-- The cache update performed by `_render_pdf_page`: a hit leaves the cache
unchanged; a miss evicts the oldest entry when `len(cache) > 20` and then
appends the new entry.  The rendered photo is abstracted as a `Nat`. -/
def renderCacheStep (cache : List (PdfKey × Nat)) (k : PdfKey) (v : Nat) :
    List (PdfKey × Nat) :=
  if (cache.lookup k).isSome then cache
  else (if 20 < cache.length then cache.drop 1 else cache) ++ [(k, v)]

/-- The cache contents after a sequence of renders starting from the empty
cache a fresh `ReaderPage` (or `_load_pdf`) begins with. -/
def runRenderOps (ops : List (PdfKey × Nat)) : List (PdfKey × Nat) :=
  ops.foldl (fun c kv => renderCacheStep c kv.1 kv.2) []

/-- A font-size button press. -/
inductive FontOp where
  | inc
  | dec
deriving DecidableEq

/-- `_increase_font` / `_decrease_font`: step by 2 inside the open bounds. -/
def stepFont (s : Int) : FontOp → Int
  | .inc => if s < 26 then s + 2 else s
  | .dec => if 14 < s then s - 2 else s

/-- The font size after a sequence of button presses, starting from the
initial `self.font_size = 18`. -/
def applyFontOps (ops : List FontOp) : Int := ops.foldl stepFont 18

/-- `_on_slider_change` for a document with `numPages` logical pages:
`total_spreads = (pages + 1) // 2`; when it exceeds 1 the new spread is
`int((value / 100) * (total_spreads - 1))`, else 0.  The float product is
exact: `(v/100)·k = (v.num·k)/(v.den·100)`, truncated by `Int.tdiv`. -/
def onSliderChange (value : ℚ) (numPages : Nat) : Int :=
  let totalSpreads := (numPages + 1) / 2
  if 1 < totalSpreads then
    Int.tdiv (value.num * ((totalSpreads : Int) - 1)) ((value.den : Int) * 100)
  else 0

/-- `max_spread = ceil(total_pages / 2) - 1`, floored at 0 (spec §4.5). -/
def specMaxSpread (n : Nat) : Nat := (Int.toNat ⌈(n : ℚ) / 2⌉) - 1

/-- The height the paginator accounts to one block: measured height plus the
10px paragraph spacing for a text block, and the fixed `350 + 20` estimate
for an image. -/
def itemLoad (F : FontSys) (wrapW : Int) (fontFamily : String) (fontSize : Int) :
    Item → Int
  | .image _ => 350 + 20
  | .text t is_header _ _ =>
    measureTextHeight F t fontFamily fontSize wrapW is_header + 10
  | .chunk t is_header =>
    measureTextHeight F t fontFamily fontSize wrapW is_header + 10
  | .link _ _ => 0

/-- The height the paginator accounts to a page (spec §8 "sum of measured
block heights + inter-block spacing"). -/
def pageLoad (F : FontSys) (wrapW : Int) (fontFamily : String) (fontSize : Int)
    (page : List Item) : Int :=
  (page.map (itemLoad F wrapW fontFamily fontSize)).sum

/-- The class-level `ReaderPage._font_cache` dict, keyed by
`(font_family, font_size, is_header)`. -/
abbrev FontCache := List ((String × Int × Bool) × FontParams)

/-- `_get_font`: return the cached font object for the key, creating and
storing it on a miss. -/
def getFont (cache : FontCache) (fontFamily : String) (fontSize : Int)
    (is_header : Bool) : FontParams × FontCache :=
  match cache.lookup (fontFamily, fontSize, is_header) with
  | some f => (f, cache)
  | none =>
    (mkFont fontFamily fontSize is_header,
     cache ++ [((fontFamily, fontSize, is_header), mkFont fontFamily fontSize is_header)])

/-- A cache state that could have been produced by `_get_font` itself: every
stored font is the one `font.Font(...)` would create for its key. -/
def validCache (cache : FontCache) : Prop :=
  ∀ p ∈ cache, p.2 = mkFont p.1.1 p.1.2.1 p.1.2.2

instance : DecidablePred validCache := fun cache => by
  unfold validCache
  infer_instance

/-- `_measure_text_height` threading the font cache through `_get_font`. -/
def measureTextHeightC (F : FontSys) (cache : FontCache) (text fontFamily : String)
    (fontSize width : Int) (is_header : Bool) : Int × FontCache :=
  let fc := getFont cache fontFamily fontSize is_header
  let line_height := F.linespace fc.1
  let text_pixels := F.measure fc.1 text
  let num_lines := max 1 (Int.tdiv (text_pixels * 108) (width * 100) + 1)
  let newline_lines := (pyCountChar text '\n' : Int) + 1
  ((max num_lines newline_lines) * line_height, fc.2)

/-- The splitting loop threading the font cache (the cache is returned even
when the fuel runs out, mirroring the process-wide dict). -/
def splitLoopC (F : FontSys) (availH wrapW : Int) (fontFamily : String)
    (fontSize : Int) (is_header : Bool) :
    Nat → List (List Item) → List Item → Int → String → FontCache →
    Option PgState × FontCache
  | 0, _, _, _, _, cache => (none, cache)
  | fuel + 1, pages, cur, curH, rem, cache =>
    if rem = "" then (some ⟨pages, cur, curH⟩, cache)
    else
      let fc := getFont cache fontFamily fontSize is_header
      let line_height := F.linespace fc.1
      let space_left := availH - curH
      let lines_that_fit := max 0 (Int.tdiv space_left line_height)
      if lines_that_fit < 2 ∧ cur ≠ [] then
        splitLoopC F availH wrapW fontFamily fontSize is_header fuel
          (pages ++ [cur]) [] 0 rem fc.2
      else
        let total_chars := lines_that_fit * charsPerLine wrapW fontSize
        if (rem.length : Int) ≤ total_chars then
          let hc := measureTextHeightC F fc.2 rem fontFamily fontSize wrapW is_header
          (some ⟨pages, cur ++ [Item.chunk rem is_header], curH + hc.1 + 10⟩, hc.2)
        else
          let chunk := pyTake rem total_chars
          let last_space := pyRfindChar chunk ' '
          let split_idx :=
            if last_space * 5 > total_chars * 4 then last_space
            else total_chars
          let page_chunk := pyStrip (pyTake rem split_idx)
          if page_chunk ≠ "" then
            let hc := measureTextHeightC F fc.2 page_chunk fontFamily fontSize wrapW is_header
            splitLoopC F availH wrapW fontFamily fontSize is_header fuel
              (pages ++ [cur ++ [Item.chunk page_chunk is_header]]) [] 0
              (pyStrip (pyDrop rem split_idx)) hc.2
          else
            splitLoopC F availH wrapW fontFamily fontSize is_header fuel
              (pages ++ [cur]) [] 0 (pyStrip (pyDrop rem split_idx)) fc.2

/-- `processBlock` threading the font cache. -/
def processBlockC (F : FontSys) (availH wrapW : Int) (fontFamily : String)
    (fontSize : Int) (s : PgState) (item : Item) (cache : FontCache) :
    Option PgState × FontCache :=
  match item with
  | .image _ =>
    let img_h : Int := 350 + 20
    if s.curH + img_h > availH ∧ s.cur ≠ [] then
      (some ⟨s.pages ++ [s.cur], [item], img_h⟩, cache)
    else
      (some ⟨s.pages, s.cur ++ [item], s.curH + img_h⟩, cache)
  | .text t is_header _ _ =>
    let hc := measureTextHeightC F cache t fontFamily fontSize wrapW is_header
    if s.curH + hc.1 + 10 ≤ availH then
      (some ⟨s.pages, s.cur ++ [item], s.curH + hc.1 + 10⟩, hc.2)
    else
      splitLoopC F availH wrapW fontFamily fontSize is_header (blockFuel t)
        s.pages s.cur s.curH t hc.2
  | .chunk t is_header =>
    let hc := measureTextHeightC F cache t fontFamily fontSize wrapW is_header
    if s.curH + hc.1 + 10 ≤ availH then
      (some ⟨s.pages, s.cur ++ [item], s.curH + hc.1 + 10⟩, hc.2)
    else
      splitLoopC F availH wrapW fontFamily fontSize is_header (blockFuel t)
        s.pages s.cur s.curH t hc.2
  | .link _ _ => (some s, cache)

/-- `paginateBlocks` threading the font cache. -/
def paginateBlocksC (F : FontSys) (availH wrapW : Int) (fontFamily : String)
    (fontSize : Int) : List Item → PgState → FontCache → Option PgState × FontCache
  | [], s, cache => (some s, cache)
  | item :: rest, s, cache =>
    match processBlockC F availH wrapW fontFamily fontSize s item cache with
    | (none, cache') => (none, cache')
    | (some s', cache') =>
      paginateBlocksC F availH wrapW fontFamily fontSize rest s' cache'

/-- `_repaginate_epub` threading the class-level font cache, as the Python
method actually executes: the cache is read and extended during the run and
survives it. -/
def repaginateEpubC (F : FontSys) (content : List Item) (pageWidth pageHeight : Int)
    (fontFamily : String) (fontSize : Int) (prior : List (List Item) × Nat)
    (cache : FontCache) : Option (List (List Item) × Nat) × FontCache :=
  if content = [] then (some prior, cache)
  else
    match paginateBlocksC F (pageHeight - 50) (pageWidth - 80) fontFamily fontSize
        content ⟨[], [], 0⟩ cache with
    | (none, cache') => (none, cache')
    | (some s, cache') =>
      let pages := if s.cur = [] then s.pages else s.pages ++ [s.cur]
      (some (pages, if pages.length = 0 then 1 else pages.length), cache')

/-! ## Concrete font systems and content used in evaluations -/

/-- A simple font system: every font is 20px tall, every character 30px
wide. -/
def demoSys : FontSys := ⟨fun _ => 20, fun _ t => 30 * (t.length : Int)⟩

/-- A font system whose line height (24px) exceeds the 10px of available
height used in the `c4` evaluation. -/
def tallSys : FontSys := ⟨fun _ => 24, fun _ t => 10 * (t.length : Int)⟩

/-- A font system whose line height does not grow with the point size (such
as a bitmap face falling back to a smaller strike at 20pt): 60px up to 18pt,
20px above. -/
def shrinkSys : FontSys :=
  ⟨fun p => if p.size ≤ 18 then 60 else 20, fun _ t => 10 * (t.length : Int)⟩

/-- A string of 200 `'a'` characters. -/
def a200 : String := ⟨List.replicate 200 'a'⟩

/-- A string of 100 `'a'` characters. -/
def a100 : String := ⟨List.replicate 100 'a'⟩

/-- A fixed font system for the page-width half of the C6 counterexample:
32px line height and an average character width of 2.5px (neither metric
depends on the width, which is not a font parameter at all). -/
def widthSys : FontSys :=
  ⟨fun _ => 32, fun _ t => Int.tdiv (5 * (t.length : Int)) 2⟩

/-- A string of 30 `'a'` characters. -/
def a30 : String := ⟨List.replicate 30 'a'⟩

/-- A string of 18 `'a'` characters. -/
def a18 : String := ⟨List.replicate 18 'a'⟩

/-! ## Claim theorems -/

/-- C10: starting from 18, any sequence of font-size button presses keeps
`font_size` an even integer in `[14, 26]`, and each press moves it by
exactly 2 except at the bounds (increase at 26 and decrease at 14 are
no-ops). -/
theorem c10_font_size_invariant :
    ∀ ops : List FontOp,
      (applyFontOps ops % 2 = 0 ∧ 14 ≤ applyFontOps ops ∧ applyFontOps ops ≤ 26) ∧
      ∀ op : FontOp,
        applyFontOps (ops ++ [op]) = applyFontOps ops + 2 ∨
        applyFontOps (ops ++ [op]) = applyFontOps ops - 2 ∨
        (applyFontOps (ops ++ [op]) = applyFontOps ops ∧
          (applyFontOps ops = 26 ∨ applyFontOps ops = 14)) := by
  have hstep : ∀ (s : Int) (op : FontOp),
      s % 2 = 0 ∧ 14 ≤ s ∧ s ≤ 26 →
      stepFont s op % 2 = 0 ∧ 14 ≤ stepFont s op ∧ stepFont s op ≤ 26 := by
    intro s op h
    cases op <;> simp only [stepFont] <;> split_ifs <;> omega
  have hinv : ∀ (l : List FontOp) (s : Int),
      s % 2 = 0 ∧ 14 ≤ s ∧ s ≤ 26 →
      (l.foldl stepFont s) % 2 = 0 ∧ 14 ≤ l.foldl stepFont s ∧ l.foldl stepFont s ≤ 26 := by
    intro l
    induction l with
    | nil => intro s hs; simpa using hs
    | cons a l ih =>
      intro s hs
      simp only [List.foldl_cons]
      exact ih _ (hstep s a hs)
  intro ops
  have hops : applyFontOps ops % 2 = 0 ∧ 14 ≤ applyFontOps ops ∧ applyFontOps ops ≤ 26 :=
    hinv ops 18 (by norm_num)
  refine ⟨hops, ?_⟩
  intro op
  have happ : applyFontOps (ops ++ [op]) = stepFont (applyFontOps ops) op := by
    simp [applyFontOps, List.foldl_append]
  rw [happ]
  cases op <;> simp only [stepFont] <;> split_ifs <;> omega

/-- C9 (amended): starting from the empty cache, the PDF render cache never
holds more than 21 entries: `_render_pdf_page` evicts the oldest entry only
once the size already exceeds 20, then appends. -/
theorem c9_cache_bound : ∀ ops : List (PdfKey × Nat), (runRenderOps ops).length ≤ 21 := by
  have hstep : ∀ (c : List (PdfKey × Nat)) (k : PdfKey) (v : Nat),
      c.length ≤ 21 → (renderCacheStep c k v).length ≤ 21 := by
    intro c k v h
    unfold renderCacheStep
    split_ifs with h1 h2
    · exact h
    · simp only [List.length_append, List.length_drop, List.length_singleton]
      omega
    · simp only [List.length_append, List.length_singleton]
      omega
  have hfold : ∀ (l : List (PdfKey × Nat)) (c : List (PdfKey × Nat)),
      c.length ≤ 21 → (l.foldl (fun c kv => renderCacheStep c kv.1 kv.2) c).length ≤ 21 := by
    intro l
    induction l with
    | nil => intro c hc; simpa using hc
    | cons a l ih =>
      intro c hc
      simp only [List.foldl_cons]
      exact ih _ (hstep c a.1 a.2 hc)
  intro ops
  exact hfold ops [] (by simp)

/-- A sequence of 21 renders with pairwise distinct cache keys. -/
def c9ops : List (PdfKey × Nat) := (List.range 21).map (fun i => ((Int.ofNat i, 0, 0), i))

/-- C9 (counterexample): after 21 renders with distinct keys the cache holds
21 entries, contradicting the claimed bound of at most 20: the eviction in
`_render_pdf_page` fires only when `len(cache) > 20`, i.e. only from the
22nd distinct render on. -/
theorem c9_counterexample : (runRenderOps c9ops).length = 21 := by decide

/-- Content consisting of a single standalone link block. -/
def linkOnlyContent : List Item := [Item.link "Example" "https://example.com"]

/-- C1: the pagination loop of `_repaginate_epub` has branches only for item
types `'image'` and `'text'`; a `'link'` item matches neither and is
silently dropped.  Paginating content consisting of one link block yields no
pages at all (`total_pages` falls back to 1), so the link appears on no
page, although `_display_page_content` has a dedicated rendering branch for
`'link'` page items. -/
theorem c1_link_blocks_dropped :
    repaginateEpub demoSys linkOnlyContent 480 750 "Georgia" 18 ([], 0) =
      some ([], 1) := by decide

/-- C3 (counterexample): on empty content `_repaginate_epub` returns at line
587 before touching `self.pages` or `self.total_pages`; with the
constructor-initial state `pages = []`, `total_pages = 0`, a zero-length
book leaves `total_pages = 0`, not `max(1, 0) = 1`. -/
theorem c3_counterexample :
    repaginateEpub demoSys [] 480 750 "Georgia" 18 ([], 0) = some ([], 0) := by decide

/-- C4 (counterexample): with positive available height 10, positive wrap
width 400 and positive line height 24, a block on an empty page computes
`lines_that_fit = 0`, so the character budget is 0, the forced chunk is
empty, and the loop re-enters with an unchanged remainder and an empty page
forever (the 2-line guard never fires because the page is empty): even 100
iterations do not finish a 3-character block. -/
theorem c4_counterexample :
    splitLoop tallSys 10 400 "Georgia" 18 false 100 [] [] 0 "aaa" = none := by decide

/-- C6 (counterexample): both monotonicity directions fail.  Font size: with
a font system whose line height does not grow with the point size
(`shrinkSys`), increasing the font size from 18 to 20 with all else fixed
drops the page count from 2 to 1: at 18pt the 100-character paragraph is 3
lines of 60px = 180px and splits across two pages of the 100px budget, at
20pt it is 3 lines of 20px = 60px and fits whole.  Page width: with fixed
metrics (`widthSys`: 32px lines, 2.5px characters) and two plain paragraphs
of 30 and 18 characters at 16pt on a 185px page (135px budget, 4 lines),
page width 107 yields 4 pages while the narrower 105 yields 3.  At 105,
`chars_per_line = int(2500/672) = 3`, so the first paragraph splits
12+12+6 and its one-line 6-character tail (32px) leaves room for the
second paragraph (2 lines, 64px) on the open page; at 107,
`chars_per_line = 4`, the first paragraph splits 16+14 and its two-line
14-character tail (64px) leaves only 61px, the second paragraph no longer
fits, and splitting it costs a guard flush plus a 16-character chunk page
before its 2-character tail — one page more at the larger width. -/
theorem c6_counterexample :
    ((repaginateEpub shrinkSys [Item.text a100 false 0 []] 480 150 "Georgia" 18
        ([], 0)).map Prod.snd = some 2 ∧
      (repaginateEpub shrinkSys [Item.text a100 false 0 []] 480 150 "Georgia" 20
        ([], 0)).map Prod.snd = some 1) ∧
    ((repaginateEpub widthSys [Item.text a30 false 0 [], Item.text a18 false 0 []]
        107 185 "Georgia" 16 ([], 0)).map Prod.snd = some 4 ∧
      (repaginateEpub widthSys [Item.text a30 false 0 [], Item.text a18 false 0 []]
        105 185 "Georgia" 16 ([], 0)).map Prod.snd = some 3) := by
  refine ⟨⟨?_, ?_⟩, ?_, ?_⟩ <;> decide

/-- The page `[text "abc", chunk a200]` produced in the C2 counterexample. -/
def c2page : List Item := [Item.text "abc" false 0 [], Item.chunk a200 false]

/-- C2 (counterexample): the splitting loop sizes chunks by the
`chars_per_line` heuristic but accounts their re-measured height without
re-checking it against the remaining space.  With 30px-wide glyphs
(`demoSys`) a 200-character chunk estimated to fit in 8 lines measures 17
lines = 340px, so the page `[text "abc", chunk]` — two blocks, not a lone
first block — carries 380px against an available height of 200px. -/
theorem c2_counterexample :
    repaginateEpub demoSys [Item.text "abc" false 0 [], Item.text a200 false 0 []]
        480 250 "Georgia" 18 ([], 0) = some ([c2page], 1) ∧
    2 ≤ c2page.length ∧
    250 - 50 < pageLoad demoSys (480 - 80) "Georgia" 18 c2page := by
  refine ⟨by decide, by decide, by decide⟩

/-- Content for the C7 evaluation: an h1 "A" and an h2 "B". -/
def c7content : List Item := [Item.text "A" true 1 [], Item.text "B" true 2 []]

/-- The pages pagination produces for `c7content` at 480×100 under
`demoSys`: "A" on page 0, "B" split onto page 1. -/
def c7pages : List (List Item) := [[Item.text "A" true 1 []], [Item.chunk "B" true]]

/-- C7 (counterexample): `_generate_toc_from_headers` appends child entries
only to their parent's `children` list, not to the flat `self.toc_entries`
list, and `_update_toc_page_indices` iterates only the flat list.  After
paginating `c7content`, the header "B" sits on page 1, but the child entry
"B" keeps its construction-time estimate 0 — so a recursive entry whose
title matches a paginated header does not get that header's page index. -/
theorem c7_counterexample :
    repaginateEpub demoSys c7content 480 100 "Georgia" 18 ([], 0) =
      some (c7pages, 2) ∧
    updateTocPageIndices (generateTocFromHeaders c7content) c7pages =
      [TocEntry.mk "A" 0 0 [TocEntry.mk "B" 0 1 []]] ∧
    lastPageWithHeader c7pages "B" = some 1 := by
  refine ⟨by decide, by rfl, by decide⟩

/-- C8 (counterexample): `_on_slider_change` truncates with `int(...)` and
does not round: with 4 pages there are 2 spreads (`max_spread = 1`), and a
slider value of 75 maps to `int(0.75) = 0`, while rounding as the claim
states would give `round(0.75) = 1`. -/
theorem c8_counterexample :
    onSliderChange 75 4 = 0 ∧
    round ((75 : ℚ) / 100 * (specMaxSpread 4 : ℚ)) = 1 := by
  constructor
  · decide
  · have h4 : specMaxSpread 4 = 1 := by
      unfold specMaxSpread
      norm_num
      decide
    rw [h4]
    norm_num [round_eq]

/-! ## Helper lemmas for the splitting loop -/

lemma length_pyStrip_le (s : String) : (pyStrip s).length ≤ s.length := by
  simp only [pyStrip, String.length]
  calc (((s.data.dropWhile Char.isWhitespace).reverse.dropWhile
          Char.isWhitespace).reverse).length
      = ((s.data.dropWhile Char.isWhitespace).reverse.dropWhile
          Char.isWhitespace).length := by rw [List.length_reverse]
    _ ≤ ((s.data.dropWhile Char.isWhitespace).reverse).length :=
        (List.dropWhile_sublist _).length_le
    _ = (s.data.dropWhile Char.isWhitespace).length := by rw [List.length_reverse]
    _ ≤ s.data.length := (List.dropWhile_sublist _).length_le

lemma length_string_pos {s : String} (hs : s ≠ "") : 1 ≤ s.length := by
  cases s with
  | mk data =>
    cases data with
    | nil => exact absurd rfl hs
    | cons a l => simp [String.length]

lemma length_pyDrop_le (s : String) (i : Int) (h1 : 1 ≤ i) (hs : s ≠ "") :
    (pyDrop s i).length ≤ s.length - 1 := by
  have hlen : 1 ≤ s.length := length_string_pos hs
  simp only [pyDrop, pySliceIdx, String.length]
  rw [if_neg (by omega)]
  rw [List.length_drop]
  have : 1 ≤ i.toNat := by omega
  omega

lemma progress_length (rem : String) (i : Int) (h1 : 1 ≤ i) (hrem : rem ≠ "") :
    (pyStrip (pyDrop rem i)).length < rem.length := by
  have h2 := length_pyStrip_le (pyDrop rem i)
  have h3 := length_pyDrop_le rem i h1 hrem
  have h4 := length_string_pos hrem
  omega

lemma one_le_tdiv_of_le {a b : Int} (hb : 0 < b) (hab : b ≤ a) : 1 ≤ a.tdiv b := by
  rw [Int.tdiv_eq_ediv (le_trans (le_of_lt hb) hab) (le_of_lt hb)]
  exact (Int.le_ediv_iff_mul_le hb).2 (by simpa)

section PaginatorLemmas

variable (F : FontSys) (availH wrapW : Int) (fontFamily : String) (fontSize : Int)
variable (is_header : Bool)

lemma splitLoop_mono {fuel fuel' : Nat} (hf : fuel ≤ fuel') :
    ∀ {pages cur curH rem r},
      splitLoop F availH wrapW fontFamily fontSize is_header fuel pages cur curH rem =
        some r →
      splitLoop F availH wrapW fontFamily fontSize is_header fuel' pages cur curH rem =
        some r := by
  induction fuel generalizing fuel' with
  | zero =>
    intro pages cur curH rem r h
    simp [splitLoop] at h
  | succ n ih =>
    intro pages cur curH rem r h
    obtain ⟨m, rfl⟩ : ∃ m, fuel' = m + 1 := ⟨fuel' - 1, by omega⟩
    have hm : n ≤ m := by omega
    simp only [splitLoop] at h ⊢
    split_ifs at h ⊢ <;> first
      | exact h
      | exact ih hm h

end PaginatorLemmas

lemma string_eq_empty_of_length {s : String} (h : s.length = 0) : s = "" := by
  cases s with
  | mk d =>
    cases d with
    | nil => rfl
    | cons a l => simp [String.length] at h

section TerminationLemmas

variable (F : FontSys) (availH wrapW : Int) (fontFamily : String) (fontSize : Int)
variable (is_header : Bool)

set_option maxHeartbeats 1000000 in
lemma splitLoop_succeeds
    (hlh : 0 < F.linespace (mkFont fontFamily fontSize is_header))
    (hla : F.linespace (mkFont fontFamily fontSize is_header) ≤ availH)
    (hcpl : 1 ≤ charsPerLine wrapW fontSize) :
    ∀ (n : Nat) (rem : String), rem.length ≤ n →
    ∀ (pages : List (List Item)) (cur : List Item) (curH : Int),
      (cur = [] → curH = 0) →
      ∃ r, splitLoop F availH wrapW fontFamily fontSize is_header (2 * n + 2)
          pages cur curH rem = some r := by
  intro n
  induction n with
  | zero =>
    intro rem hrem pages cur curH _
    have : rem = "" := string_eq_empty_of_length (by omega)
    subst this
    exact ⟨⟨pages, cur, curH⟩, by simp [splitLoop]⟩
  | succ n ih =>
    intro rem hrem pages cur curH hinv
    by_cases hrem0 : rem = ""
    · subst hrem0
      exact ⟨⟨pages, cur, curH⟩, by simp [splitLoop]⟩
    · set lh := F.linespace (mkFont fontFamily fontSize is_header) with hlh_def
      have key : ∀ (pages' : List (List Item)),
          ∃ r, splitLoop F availH wrapW fontFamily fontSize is_header (2 * n + 2 + 1)
              pages' [] 0 rem = some r := by
        -- on an empty page at least one line fits, so the loop either
        -- finishes the block or consumes at least one character
        intro pages'
        rw [show 2 * n + 2 + 1 = (2 * n + 2) + 1 by ring]
        simp only [splitLoop]
        rw [if_neg hrem0]
        rw [if_neg (by simp)]
        set T := max 0 (Int.tdiv (availH - 0) lh) * charsPerLine wrapW fontSize with hT
        have hltf : 1 ≤ max 0 (Int.tdiv (availH - 0) lh) := by
          have h1 : 1 ≤ Int.tdiv (availH - 0) lh := by
            rw [sub_zero]
            exact one_le_tdiv_of_le hlh hla
          omega
        have htc : 1 ≤ T := by
          rw [hT]
          have := mul_le_mul hltf hcpl zero_le_one (le_trans zero_le_one hltf)
          simpa using this
        by_cases hfit : (rem.length : Int) ≤ T
        · rw [if_pos hfit]
          exact ⟨_, rfl⟩
        · rw [if_neg hfit]
          set si := (if pyRfindChar (pyTake rem T) ' ' * 5 > T * 4 then
            pyRfindChar (pyTake rem T) ' ' else T) with hsi_def
          have hsi : 1 ≤ si := by
            rw [hsi_def]
            split_ifs with hls
            · omega
            · exact htc
          have hlt := progress_length rem si hsi hrem0
          have step0 : ∀ (pgs : List (List Item)) (rem' : String), rem'.length ≤ n →
              ∃ r, splitLoop F availH wrapW fontFamily fontSize is_header (2 * n + 2)
                pgs [] 0 rem' = some r :=
            fun pgs rem' hl => ih rem' hl pgs [] 0 (fun _ => rfl)
          refine step0 _ _ ?_
          omega
      rw [show 2 * (n + 1) + 2 = (2 * n + 3) + 1 by ring]
      simp only [splitLoop]
      rw [if_neg hrem0]
      by_cases hg : max 0 (Int.tdiv (availH - curH) lh) < 2 ∧ cur ≠ []
      · rw [if_pos hg]
        exact key (pages ++ [cur])
      · rw [if_neg hg]
        set T := max 0 (Int.tdiv (availH - curH) lh) * charsPerLine wrapW fontSize with hT
        have hltf : 1 ≤ max 0 (Int.tdiv (availH - curH) lh) := by
          by_cases hcur : cur = []
          · have h0 : curH = 0 := hinv hcur
            rw [h0]
            have h1 : 1 ≤ Int.tdiv (availH - 0) lh := by
              rw [sub_zero]
              exact one_le_tdiv_of_le hlh hla
            omega
          · have h2 : ¬ max 0 (Int.tdiv (availH - curH) lh) < 2 := fun hlt => hg ⟨hlt, hcur⟩
            omega
        have htc : 1 ≤ T := by
          rw [hT]
          have := mul_le_mul hltf hcpl zero_le_one (le_trans zero_le_one hltf)
          simpa using this
        by_cases hfit : (rem.length : Int) ≤ T
        · rw [if_pos hfit]
          exact ⟨_, rfl⟩
        · rw [if_neg hfit]
          set si := (if pyRfindChar (pyTake rem T) ' ' * 5 > T * 4 then
            pyRfindChar (pyTake rem T) ' ' else T) with hsi_def
          have hsi : 1 ≤ si := by
            rw [hsi_def]
            split_ifs with hls
            · omega
            · exact htc
          have hlt := progress_length rem si hsi hrem0
          have step1 : ∀ (pgs : List (List Item)) (rem' : String), rem'.length ≤ n →
              ∃ r, splitLoop F availH wrapW fontFamily fontSize is_header (2 * n + 3)
                pgs [] 0 rem' = some r := by
            intro pgs rem' hl
            obtain ⟨r, hr⟩ := ih rem' hl pgs [] 0 (fun _ => rfl)
            exact ⟨r, splitLoop_mono F availH wrapW fontFamily fontSize is_header
              (by omega) hr⟩
          refine step1 _ _ ?_
          omega

end TerminationLemmas

section OuterLemmas

variable (F : FontSys) (availH wrapW : Int) (fontFamily : String) (fontSize : Int)

lemma splitLoop_emptyInv {is_header : Bool} :
    ∀ {fuel pages cur curH rem r},
      splitLoop F availH wrapW fontFamily fontSize is_header fuel pages cur curH rem =
        some r →
      (cur = [] → curH = 0) → (r.cur = [] → r.curH = 0) := by
  intro fuel
  induction fuel with
  | zero =>
    intro pages cur curH rem r h
    simp [splitLoop] at h
  | succ n ih =>
    intro pages cur curH rem r h hinv
    simp only [splitLoop] at h
    split_ifs at h
    all_goals try simp only [Option.some.injEq] at h
    all_goals first
      | exact ih h (fun _ => rfl)
      | (subst h
         exact hinv)
      | (subst h
         intro hc
         simp at hc)

lemma processBlock_emptyInv {s : PgState} {item : Item} {s' : PgState}
    (h : processBlock F availH wrapW fontFamily fontSize s item = some s')
    (hinv : s.cur = [] → s.curH = 0) : s'.cur = [] → s'.curH = 0 := by
  cases item with
  | image im =>
    simp only [processBlock] at h
    split_ifs at h <;> obtain rfl : _ = s' := by simpa using h
    · intro hc; simp at hc
    · intro hc; simp at hc
  | text t is_header lv lk =>
    simp only [processBlock] at h
    split_ifs at h
    · obtain rfl : _ = s' := by simpa using h
      intro hc; simp at hc
    · exact splitLoop_emptyInv F availH wrapW fontFamily fontSize h hinv
  | chunk t is_header =>
    simp only [processBlock] at h
    split_ifs at h
    · obtain rfl : _ = s' := by simpa using h
      intro hc; simp at hc
    · exact splitLoop_emptyInv F availH wrapW fontFamily fontSize h hinv
  | link t u =>
    obtain rfl : s = s' := by simpa [processBlock] using h
    exact hinv

lemma paginateBlocks_succeeds
    (hlh : ∀ b : Bool, 0 < F.linespace (mkFont fontFamily fontSize b))
    (hla : ∀ b : Bool, F.linespace (mkFont fontFamily fontSize b) ≤ availH)
    (hcpl : 1 ≤ charsPerLine wrapW fontSize) :
    ∀ (content : List Item) (s : PgState), (s.cur = [] → s.curH = 0) →
      ∃ s', paginateBlocks F availH wrapW fontFamily fontSize content s = some s' := by
  intro content
  induction content with
  | nil => intro s _; exact ⟨s, rfl⟩
  | cons item rest ih =>
    intro s hinv
    cases item with
    | image im =>
      simp only [paginateBlocks, processBlock]
      split_ifs with h1
      · exact ih _ (fun hc => by simp at hc)
      · exact ih _ (fun hc => by simp at hc)
    | text t is_header lv lk =>
      simp only [paginateBlocks, processBlock]
      split_ifs with h1
      · exact ih _ (fun hc => by simp at hc)
      · obtain ⟨r, hr⟩ := splitLoop_succeeds F availH wrapW fontFamily fontSize is_header
          (hlh is_header) (hla is_header) hcpl t.length t le_rfl s.pages s.cur s.curH hinv
        rw [show blockFuel t = 2 * t.length + 2 from rfl, hr]
        exact ih r (splitLoop_emptyInv F availH wrapW fontFamily fontSize hr hinv)
    | chunk t is_header =>
      simp only [paginateBlocks, processBlock]
      split_ifs with h1
      · exact ih _ (fun hc => by simp at hc)
      · obtain ⟨r, hr⟩ := splitLoop_succeeds F availH wrapW fontFamily fontSize is_header
          (hlh is_header) (hla is_header) hcpl t.length t le_rfl s.pages s.cur s.curH hinv
        rw [show blockFuel t = 2 * t.length + 2 from rfl, hr]
        exact ih r (splitLoop_emptyInv F availH wrapW fontFamily fontSize hr hinv)
    | link t u =>
      simp only [paginateBlocks, processBlock]
      exact ih s hinv

end OuterLemmas

/-- C3 (amended): on nonempty content, whenever the geometry admits at least
one full line (`line_height ≤ available_height`, positive line heights) and
at least one character per line, `_repaginate_epub` completes and sets
`total_pages = max(1, number of pages produced) ≥ 1`.  On empty content the
method returns early and leaves the previous `(pages, total_pages)`
untouched — so a zero-length book keeps `total_pages = 0` from `__init__`
rather than getting `max(1, 0) = 1`. -/
theorem c3_total_pages (F : FontSys) (content : List Item)
    (pageWidth pageHeight : Int) (fontFamily : String) (fontSize : Int)
    (prior : List (List Item) × Nat)
    (hne : content ≠ [])
    (hlh : ∀ b : Bool, 0 < F.linespace (mkFont fontFamily fontSize b))
    (hla : ∀ b : Bool, F.linespace (mkFont fontFamily fontSize b) ≤ pageHeight - 50)
    (hcpl : 1 ≤ charsPerLine (pageWidth - 80) fontSize) :
    (∃ pages total,
        repaginateEpub F content pageWidth pageHeight fontFamily fontSize prior =
          some (pages, total) ∧ total = max 1 pages.length ∧ 1 ≤ total) ∧
      repaginateEpub F [] pageWidth pageHeight fontFamily fontSize prior = some prior := by
  constructor
  · obtain ⟨s, hs⟩ := paginateBlocks_succeeds F (pageHeight - 50) (pageWidth - 80)
      fontFamily fontSize hlh hla hcpl content ⟨[], [], 0⟩ (fun _ => rfl)
    have hrep : repaginateEpub F content pageWidth pageHeight fontFamily fontSize prior =
        some (if s.cur = [] then s.pages else s.pages ++ [s.cur],
          if (if s.cur = [] then s.pages else s.pages ++ [s.cur]).length = 0 then 1
          else (if s.cur = [] then s.pages else s.pages ++ [s.cur]).length) := by
      simp only [repaginateEpub, if_neg hne, hs]
    obtain ⟨pgs, hpgs⟩ : ∃ pgs : List (List Item),
        (if s.cur = [] then s.pages else s.pages ++ [s.cur]) = pgs := ⟨_, rfl⟩
    rw [hpgs] at hrep
    refine ⟨pgs, _, hrep, ?_, ?_⟩
    · split_ifs with h1
      · simp [h1]
      · exact (Nat.max_eq_right (Nat.pos_of_ne_zero h1)).symm
    · split_ifs with h1
      · exact le_refl 1
      · exact Nat.pos_of_ne_zero h1
  · simp [repaginateEpub]

/-- C3 (witness). -/
theorem c3_witness :
    (∃ pages total,
        repaginateEpub demoSys [Item.text "hi" false 0 []] 480 750 "Georgia" 18 ([], 0) =
          some (pages, total) ∧ total = max 1 pages.length ∧ 1 ≤ total) ∧
      repaginateEpub demoSys [] 480 750 "Georgia" 18 ([], 0) = some ([], 0) :=
  c3_total_pages demoSys [Item.text "hi" false 0 []] 480 750 "Georgia" 18 ([], 0)
    (by decide) (by decide) (by decide) (by decide)

/-- C4 (amended): the paragraph-splitting loop terminates within
`2·|text| + 2` iterations provided the page admits at least one full line
(`0 < line_height ≤ available_height`) and the character budget per line is
at least 1; under these bounds every iteration on an empty page consumes at
least one character or finishes the block, and a chunk narrower than the
2-line minimum is forced onto an otherwise-empty page.  Without them (e.g.
a positive available height smaller than one line) the guard at step 2
never fires on an empty page, the forced chunk is empty, and the loop
repeats its state forever — see the counterexample. -/
theorem c4_split_terminates (F : FontSys) (availH wrapW : Int)
    (fontFamily : String) (fontSize : Int) (is_header : Bool)
    (hlh : 0 < F.linespace (mkFont fontFamily fontSize is_header))
    (hla : F.linespace (mkFont fontFamily fontSize is_header) ≤ availH)
    (hcpl : 1 ≤ charsPerLine wrapW fontSize)
    (rem : String) (pages : List (List Item)) (cur : List Item) (curH : Int)
    (hinv : cur = [] → curH = 0) :
    ∃ r, splitLoop F availH wrapW fontFamily fontSize is_header (blockFuel rem)
        pages cur curH rem = some r :=
  splitLoop_succeeds F availH wrapW fontFamily fontSize is_header hlh hla hcpl
    rem.length rem le_rfl pages cur curH hinv

/-- C4 (witness). -/
theorem c4_witness :
    ∃ r, splitLoop demoSys 650 400 "Georgia" 18 false (blockFuel "hello world")
        [] [] 0 "hello world" = some r :=
  c4_split_terminates demoSys 650 400 "Georgia" 18 false (by decide) (by decide)
    (by decide) "hello world" [] [] 0 (fun _ => rfl)

/-- The height bound the spec asserts for a page: if it holds no split chunk
and more than one block, its accounted load fits in the available height. -/
def pageWithinBudget (F : FontSys) (availH wrapW : Int) (fontFamily : String)
    (fontSize : Int) (page : List Item) : Prop :=
  (∀ it ∈ page, it.isChunk = false) → 2 ≤ page.length →
    pageLoad F wrapW fontFamily fontSize page ≤ availH

section InvariantLemmas

variable (F : FontSys) (availH wrapW : Int) (fontFamily : String) (fontSize : Int)

lemma pageLoad_append (l l' : List Item) :
    pageLoad F wrapW fontFamily fontSize (l ++ l') =
      pageLoad F wrapW fontFamily fontSize l +
        pageLoad F wrapW fontFamily fontSize l' := by
  simp [pageLoad]

lemma pageWithinBudget_nil : pageWithinBudget F availH wrapW fontFamily fontSize [] := by
  intro _ h2
  simp at h2

lemma pageWithinBudget_chunk (cur : List Item) (t : String) (b : Bool) :
    pageWithinBudget F availH wrapW fontFamily fontSize
      (cur ++ [Item.chunk t b]) := by
  intro hnc _
  have := hnc (Item.chunk t b) (by simp)
  simp [Item.isChunk] at this

lemma splitLoop_invariant {is_header : Bool} :
    ∀ {fuel pages cur curH rem r},
      splitLoop F availH wrapW fontFamily fontSize is_header fuel pages cur curH rem =
        some r →
      curH = pageLoad F wrapW fontFamily fontSize cur →
      pageWithinBudget F availH wrapW fontFamily fontSize cur →
      (∀ p ∈ pages, pageWithinBudget F availH wrapW fontFamily fontSize p) →
      r.curH = pageLoad F wrapW fontFamily fontSize r.cur ∧
        pageWithinBudget F availH wrapW fontFamily fontSize r.cur ∧
        ∀ p ∈ r.pages, pageWithinBudget F availH wrapW fontFamily fontSize p := by
  intro fuel
  induction fuel with
  | zero =>
    intro pages cur curH rem r h
    simp [splitLoop] at h
  | succ n ih =>
    intro pages cur curH rem r h hload hbud hpages
    have hrec : ∀ (pg : List Item) {rem' : String} {r' : PgState},
        pageWithinBudget F availH wrapW fontFamily fontSize pg →
        splitLoop F availH wrapW fontFamily fontSize is_header n
          (pages ++ [pg]) [] 0 rem' = some r' →
        r'.curH = pageLoad F wrapW fontFamily fontSize r'.cur ∧
          pageWithinBudget F availH wrapW fontFamily fontSize r'.cur ∧
          ∀ p ∈ r'.pages, pageWithinBudget F availH wrapW fontFamily fontSize p := by
      intro pg rem' r' hpg hh
      refine ih hh ?_ ?_ ?_
      · simp [pageLoad]
      · exact pageWithinBudget_nil F availH wrapW fontFamily fontSize
      · intro p hp
        rcases List.mem_append.1 hp with hp | hp
        · exact hpages p hp
        · simp only [List.mem_singleton] at hp
          subst hp
          exact hpg
    simp only [splitLoop] at h
    split_ifs at h with h1 h2 h3
    · obtain rfl : PgState.mk pages cur curH = r := by simpa using h
      exact ⟨hload, hbud, hpages⟩
    · exact hrec cur hbud h
    · obtain rfl : PgState.mk pages (cur ++ [Item.chunk rem is_header])
          (curH + measureTextHeight F rem fontFamily fontSize wrapW is_header + 10) = r := by
        simpa using h
      refine ⟨?_, ?_, hpages⟩
      · rw [pageLoad_append]
        simp [pageLoad, itemLoad, hload, add_assoc]
      · exact pageWithinBudget_chunk F availH wrapW fontFamily fontSize cur rem is_header
    all_goals first
      | exact hrec _ (pageWithinBudget_chunk F availH wrapW fontFamily fontSize cur _
          is_header) h
      | exact hrec _ hbud h

lemma processBlock_invariant {s : PgState} {item : Item} {s' : PgState}
    (h : processBlock F availH wrapW fontFamily fontSize s item = some s')
    (hload : s.curH = pageLoad F wrapW fontFamily fontSize s.cur)
    (hbud : pageWithinBudget F availH wrapW fontFamily fontSize s.cur)
    (hpages : ∀ p ∈ s.pages, pageWithinBudget F availH wrapW fontFamily fontSize p) :
    s'.curH = pageLoad F wrapW fontFamily fontSize s'.cur ∧
      pageWithinBudget F availH wrapW fontFamily fontSize s'.cur ∧
      ∀ p ∈ s'.pages, pageWithinBudget F availH wrapW fontFamily fontSize p := by
  cases item with
  | image im =>
    simp only [processBlock] at h
    split_ifs at h with h1
    · obtain rfl : PgState.mk (s.pages ++ [s.cur]) [Item.image im] (350 + 20) = s' := by
        simpa using h
      refine ⟨by simp [pageLoad, itemLoad], ?_, ?_⟩
      · intro _ h2
        simp at h2
      · intro p hp
        rcases List.mem_append.1 hp with hp | hp
        · exact hpages p hp
        · simp only [List.mem_singleton] at hp
          subst hp
          exact hbud
    · obtain rfl : PgState.mk s.pages (s.cur ++ [Item.image im]) (s.curH + (350 + 20)) =
          s' := by simpa using h
      refine ⟨?_, ?_, hpages⟩
      · rw [pageLoad_append]
        simp [pageLoad, itemLoad, hload, add_assoc]
      · intro hnc hlen
        rw [pageLoad_append]
        have hone : pageLoad F wrapW fontFamily fontSize [Item.image im] = 350 + 20 := by
          simp [pageLoad, itemLoad]
        rcases Classical.em (s.cur = []) with hcur | hcur
        · rw [hcur] at hlen
          simp at hlen
        · have hle : s.curH + (350 + 20) ≤ availH := by
            by_contra hgt
            exact h1 ⟨by omega, hcur⟩
          omega
  | text t is_header lv lk =>
    simp only [processBlock] at h
    split_ifs at h with h1
    · obtain rfl : PgState.mk s.pages (s.cur ++ [Item.text t is_header lv lk])
          (s.curH + measureTextHeight F t fontFamily fontSize wrapW is_header + 10) =
          s' := by simpa using h
      refine ⟨?_, ?_, hpages⟩
      · rw [pageLoad_append]
        simp [pageLoad, itemLoad, hload, add_assoc]
      · intro _ _
        rw [pageLoad_append]
        have hone : pageLoad F wrapW fontFamily fontSize [Item.text t is_header lv lk] =
            measureTextHeight F t fontFamily fontSize wrapW is_header + 10 := by
          simp [pageLoad, itemLoad]
        omega
    · exact splitLoop_invariant F availH wrapW fontFamily fontSize h hload hbud hpages
  | chunk t is_header =>
    simp only [processBlock] at h
    split_ifs at h with h1
    · obtain rfl : PgState.mk s.pages (s.cur ++ [Item.chunk t is_header])
          (s.curH + measureTextHeight F t fontFamily fontSize wrapW is_header + 10) =
          s' := by simpa using h
      refine ⟨?_, ?_, hpages⟩
      · rw [pageLoad_append]
        simp [pageLoad, itemLoad, hload, add_assoc]
      · intro _ _
        rw [pageLoad_append]
        have hone : pageLoad F wrapW fontFamily fontSize [Item.chunk t is_header] =
            measureTextHeight F t fontFamily fontSize wrapW is_header + 10 := by
          simp [pageLoad, itemLoad]
        omega
    · exact splitLoop_invariant F availH wrapW fontFamily fontSize h hload hbud hpages
  | link t u =>
    obtain rfl : s = s' := by simpa [processBlock] using h
    exact ⟨hload, hbud, hpages⟩

lemma paginateBlocks_invariant :
    ∀ {content : List Item} {s s' : PgState},
      paginateBlocks F availH wrapW fontFamily fontSize content s = some s' →
      s.curH = pageLoad F wrapW fontFamily fontSize s.cur →
      pageWithinBudget F availH wrapW fontFamily fontSize s.cur →
      (∀ p ∈ s.pages, pageWithinBudget F availH wrapW fontFamily fontSize p) →
      s'.curH = pageLoad F wrapW fontFamily fontSize s'.cur ∧
        pageWithinBudget F availH wrapW fontFamily fontSize s'.cur ∧
        ∀ p ∈ s'.pages, pageWithinBudget F availH wrapW fontFamily fontSize p := by
  intro content
  induction content with
  | nil =>
    intro s s' h hload hbud hpages
    obtain rfl : s = s' := by simpa [paginateBlocks] using h
    exact ⟨hload, hbud, hpages⟩
  | cons item rest ih =>
    intro s s' h hload hbud hpages
    simp only [paginateBlocks] at h
    cases hpb : processBlock F availH wrapW fontFamily fontSize s item with
    | none => rw [hpb] at h; simp at h
    | some s1 =>
      rw [hpb] at h
      obtain ⟨g1, g2, g3⟩ :=
        processBlock_invariant F availH wrapW fontFamily fontSize hpb hload hbud hpages
      exact ih h g1 g2 g3

end InvariantLemmas

/-- C2 (amended): every page the paginator produces that contains no
mid-paragraph split chunk and more than one block fits the available height
budget `page_height - 50` (a page whose only overflow is a lone first block
— an image taller than the page, or a single split chunk — is exempt, and
pages carrying a split chunk may overshoot because the splitting loop
accounts a chunk's re-measured height without re-checking it against the
remaining space; see the counterexample). -/
theorem c2_height_bound_no_chunks (F : FontSys) (content : List Item)
    (pageWidth pageHeight : Int) (fontFamily : String) (fontSize : Int)
    (prior : List (List Item) × Nat) (pages : List (List Item)) (total : Nat)
    (hne : content ≠ [])
    (hrun : repaginateEpub F content pageWidth pageHeight fontFamily fontSize prior =
      some (pages, total)) :
    ∀ page ∈ pages, (∀ it ∈ page, it.isChunk = false) → 2 ≤ page.length →
      pageLoad F (pageWidth - 80) fontFamily fontSize page ≤ pageHeight - 50 := by
  simp only [repaginateEpub, if_neg hne] at hrun
  cases hpb : paginateBlocks F (pageHeight - 50) (pageWidth - 80) fontFamily fontSize
      content ⟨[], [], 0⟩ with
  | none => rw [hpb] at hrun; simp at hrun
  | some s =>
    rw [hpb] at hrun
    obtain ⟨g1, g2, g3⟩ := paginateBlocks_invariant F (pageHeight - 50) (pageWidth - 80)
      fontFamily fontSize hpb (by simp [pageLoad])
      (pageWithinBudget_nil F (pageHeight - 50) (pageWidth - 80) fontFamily fontSize)
      (by intro p hp; simp at hp)
    have hpg : (if s.cur = [] then s.pages else s.pages ++ [s.cur]) = pages := by
      simpa using congrArg (fun o => (Option.map Prod.fst o).getD []) hrun
    intro page hpage
    rw [← hpg] at hpage
    split_ifs at hpage with hc
    · exact g3 page hpage
    · rcases List.mem_append.1 hpage with hp | hp
      · exact g3 page hp
      · simp only [List.mem_singleton] at hp
        subst hp
        exact g2

/-- C2 (witness): a two-block chunk-free page within budget. -/
theorem c2_witness :
    pageLoad demoSys (480 - 80) "Georgia" 18
      [Item.text "hi" false 0 [], Item.text "yo" false 0 []] ≤ 750 - 50 :=
  c2_height_bound_no_chunks demoSys
    [Item.text "hi" false 0 [], Item.text "yo" false 0 []] 480 750 "Georgia" 18
    ([], 0) [[Item.text "hi" false 0 [], Item.text "yo" false 0 []]] 1
    (by decide) (by decide)
    [Item.text "hi" false 0 [], Item.text "yo" false 0 []]
    (by decide) (by decide) (by decide)

section CacheLemmas

lemma lookup_validCache {cache : FontCache} (hc : validCache cache)
    {fontFamily : String} {fontSize : Int} {is_header : Bool} {fp : FontParams}
    (hl : cache.lookup (fontFamily, fontSize, is_header) = some fp) :
    fp = mkFont fontFamily fontSize is_header := by
  induction cache with
  | nil => simp [List.lookup] at hl
  | cons p rest ih =>
    have hp : p.2 = mkFont p.1.1 p.1.2.1 p.1.2.2 := hc p (by simp)
    have hrest : validCache rest := fun q hq => hc q (by simp [hq])
    simp only [List.lookup] at hl
    rcases hbeq : ((fontFamily, fontSize, is_header) == p.1) with _ | _
    · rw [hbeq] at hl
      exact ih hrest hl
    · rw [hbeq] at hl
      have hkey : (fontFamily, fontSize, is_header) = p.1 := eq_of_beq hbeq
      obtain rfl : p.2 = fp := by simpa using hl
      rw [hp, ← hkey]

lemma getFont_fst {cache : FontCache} (hc : validCache cache)
    (fontFamily : String) (fontSize : Int) (is_header : Bool) :
    (getFont cache fontFamily fontSize is_header).1 = mkFont fontFamily fontSize is_header := by
  unfold getFont
  cases hl : cache.lookup (fontFamily, fontSize, is_header) with
  | none => rfl
  | some fp => simpa using lookup_validCache hc hl

lemma getFont_snd {cache : FontCache} (hc : validCache cache)
    (fontFamily : String) (fontSize : Int) (is_header : Bool) :
    validCache (getFont cache fontFamily fontSize is_header).2 := by
  unfold getFont
  cases hl : cache.lookup (fontFamily, fontSize, is_header) with
  | none =>
    intro p hp
    simp only [List.mem_append, List.mem_singleton] at hp
    rcases hp with hp | hp
    · exact hc p hp
    · subst hp
      rfl
  | some fp => exact hc

lemma measureTextHeightC_fst {cache : FontCache} (hc : validCache cache)
    (F : FontSys) (text fontFamily : String) (fontSize width : Int) (is_header : Bool) :
    (measureTextHeightC F cache text fontFamily fontSize width is_header).1 =
      measureTextHeight F text fontFamily fontSize width is_header := by
  simp only [measureTextHeightC, measureTextHeight]
  rw [getFont_fst hc]

lemma measureTextHeightC_snd {cache : FontCache} (hc : validCache cache)
    (F : FontSys) (text fontFamily : String) (fontSize width : Int) (is_header : Bool) :
    validCache (measureTextHeightC F cache text fontFamily fontSize width is_header).2 := by
  unfold measureTextHeightC
  exact getFont_snd hc fontFamily fontSize is_header

lemma splitLoopC_eq (F : FontSys) (availH wrapW : Int) (fontFamily : String)
    (fontSize : Int) (is_header : Bool) :
    ∀ (fuel : Nat) (pages : List (List Item)) (cur : List Item) (curH : Int)
      (rem : String) (cache : FontCache), validCache cache →
      (splitLoopC F availH wrapW fontFamily fontSize is_header fuel pages cur curH
          rem cache).1 =
        splitLoop F availH wrapW fontFamily fontSize is_header fuel pages cur curH rem ∧
      validCache (splitLoopC F availH wrapW fontFamily fontSize is_header fuel pages cur
          curH rem cache).2 := by
  intro fuel
  induction fuel with
  | zero =>
    intro pages cur curH rem cache hc
    exact ⟨rfl, hc⟩
  | succ n ih =>
    intro pages cur curH rem cache hc
    simp only [splitLoopC, splitLoop]
    rw [getFont_fst hc]
    have hc2 : validCache (getFont cache fontFamily fontSize is_header).2 :=
      getFont_snd hc fontFamily fontSize is_header
    split_ifs with h1 h2 h3 h4 h5
    · exact ⟨rfl, hc⟩
    · exact ih _ _ _ _ _ hc2
    · refine ⟨?_, measureTextHeightC_snd hc2 F rem fontFamily fontSize wrapW is_header⟩
      rw [measureTextHeightC_fst hc2]
    all_goals first
      | exact ih _ _ _ _ _
          (measureTextHeightC_snd hc2 F _ fontFamily fontSize wrapW is_header)
      | exact ih _ _ _ _ _ hc2

end CacheLemmas

section CacheLemmas2

lemma processBlockC_eq (F : FontSys) (availH wrapW : Int) (fontFamily : String)
    (fontSize : Int) (s : PgState) (item : Item) (cache : FontCache)
    (hc : validCache cache) :
    (processBlockC F availH wrapW fontFamily fontSize s item cache).1 =
      processBlock F availH wrapW fontFamily fontSize s item ∧
    validCache (processBlockC F availH wrapW fontFamily fontSize s item cache).2 := by
  cases item with
  | image im =>
    simp only [processBlockC, processBlock]
    split_ifs <;> exact ⟨rfl, hc⟩
  | text t is_header lv lk =>
    simp only [processBlockC, processBlock]
    have hm1 := measureTextHeightC_fst hc F t fontFamily fontSize wrapW is_header
    have hm2 := measureTextHeightC_snd hc F t fontFamily fontSize wrapW is_header
    rw [hm1]
    split_ifs with h1
    · exact ⟨rfl, hm2⟩
    · exact splitLoopC_eq F availH wrapW fontFamily fontSize is_header _ _ _ _ _ _ hm2
  | chunk t is_header =>
    simp only [processBlockC, processBlock]
    have hm1 := measureTextHeightC_fst hc F t fontFamily fontSize wrapW is_header
    have hm2 := measureTextHeightC_snd hc F t fontFamily fontSize wrapW is_header
    rw [hm1]
    split_ifs with h1
    · exact ⟨rfl, hm2⟩
    · exact splitLoopC_eq F availH wrapW fontFamily fontSize is_header _ _ _ _ _ _ hm2
  | link t u =>
    exact ⟨rfl, hc⟩

lemma paginateBlocksC_eq (F : FontSys) (availH wrapW : Int) (fontFamily : String)
    (fontSize : Int) :
    ∀ (content : List Item) (s : PgState) (cache : FontCache), validCache cache →
      (paginateBlocksC F availH wrapW fontFamily fontSize content s cache).1 =
        paginateBlocks F availH wrapW fontFamily fontSize content s ∧
      validCache (paginateBlocksC F availH wrapW fontFamily fontSize content s cache).2 := by
  intro content
  induction content with
  | nil => intro s cache hc; exact ⟨rfl, hc⟩
  | cons item rest ih =>
    intro s cache hc
    obtain ⟨h1, h2⟩ := processBlockC_eq F availH wrapW fontFamily fontSize s item cache hc
    simp only [paginateBlocksC, paginateBlocks]
    cases hpc : processBlockC F availH wrapW fontFamily fontSize s item cache with
    | mk o cache' =>
      rw [hpc] at h1 h2
      simp only at h1 h2
      rw [← h1]
      cases o with
      | none => exact ⟨rfl, h2⟩
      | some s' => exact ih s' cache' h2

lemma repaginateEpubC_eq (F : FontSys) (content : List Item)
    (pageWidth pageHeight : Int) (fontFamily : String) (fontSize : Int)
    (prior : List (List Item) × Nat) (cache : FontCache) (hc : validCache cache) :
    (repaginateEpubC F content pageWidth pageHeight fontFamily fontSize prior cache).1 =
      repaginateEpub F content pageWidth pageHeight fontFamily fontSize prior ∧
    validCache
      (repaginateEpubC F content pageWidth pageHeight fontFamily fontSize prior cache).2 := by
  simp only [repaginateEpubC, repaginateEpub]
  split_ifs with h1
  · exact ⟨rfl, hc⟩
  · obtain ⟨h2, h3⟩ := paginateBlocksC_eq F (pageHeight - 50) (pageWidth - 80)
      fontFamily fontSize content ⟨[], [], 0⟩ cache hc
    cases hpb : paginateBlocksC F (pageHeight - 50) (pageWidth - 80) fontFamily fontSize
        content ⟨[], [], 0⟩ cache with
    | mk o cache' =>
      rw [hpb] at h2 h3
      simp only at h2 h3
      rw [← h2]
      cases o with
      | none => exact ⟨rfl, h3⟩
      | some s => exact ⟨rfl, h3⟩

end CacheLemmas2

/-- C5: pagination is deterministic and the font cache is pure memoization:
threading any two caches that `_get_font` itself could have built (every
stored font matches its key) through `_repaginate_epub` yields the page
sequence of the cache-free function — in particular two runs, with the
second reusing the cache mutated by the first, return identical results —
and the cache stays valid for later runs. -/
theorem c5_deterministic (F : FontSys) (content : List Item)
    (pageWidth pageHeight : Int) (fontFamily : String) (fontSize : Int)
    (prior : List (List Item) × Nat) (c1 c2 : FontCache)
    (hc1 : validCache c1) (hc2 : validCache c2) :
    (repaginateEpubC F content pageWidth pageHeight fontFamily fontSize prior c1).1 =
      repaginateEpub F content pageWidth pageHeight fontFamily fontSize prior ∧
    (repaginateEpubC F content pageWidth pageHeight fontFamily fontSize prior c1).1 =
      (repaginateEpubC F content pageWidth pageHeight fontFamily fontSize prior c2).1 ∧
    validCache
      (repaginateEpubC F content pageWidth pageHeight fontFamily fontSize prior c1).2 := by
  obtain ⟨h1, h2⟩ := repaginateEpubC_eq F content pageWidth pageHeight fontFamily fontSize
    prior c1 hc1
  obtain ⟨h3, _⟩ := repaginateEpubC_eq F content pageWidth pageHeight fontFamily fontSize
    prior c2 hc2
  exact ⟨h1, by rw [h1, h3], h2⟩

/-- C5 (witness): an empty cache and a one-entry valid cache yield the same
pages, equal to the pure result. -/
theorem c5_witness :
    (repaginateEpubC demoSys [Item.text "hi" false 0 []] 480 750 "Georgia" 18
        ([], 0) []).1 =
      repaginateEpub demoSys [Item.text "hi" false 0 []] 480 750 "Georgia" 18 ([], 0) ∧
    (repaginateEpubC demoSys [Item.text "hi" false 0 []] 480 750 "Georgia" 18
        ([], 0) []).1 =
      (repaginateEpubC demoSys [Item.text "hi" false 0 []] 480 750 "Georgia" 18
        ([], 0) [(("Georgia", 18, false), mkFont "Georgia" 18 false)]).1 ∧
    validCache
      (repaginateEpubC demoSys [Item.text "hi" false 0 []] 480 750 "Georgia" 18
        ([], 0) []).2 :=
  c5_deterministic demoSys [Item.text "hi" false 0 []] 480 750 "Georgia" 18 ([], 0)
    [] [(("Georgia", 18, false), mkFont "Georgia" 18 false)]
    (by decide) (by decide)

section MeasureMonotone

lemma ediv_le_ediv_den {a c d : Int} (ha : 0 ≤ a) (hc : 0 < c) (hcd : c ≤ d) :
    a / d ≤ a / c := by
  have hd : 0 < d := lt_of_lt_of_le hc hcd
  rw [Int.le_ediv_iff_mul_le hc]
  have h1 : 0 ≤ a % d := Int.emod_nonneg a hd.ne'
  have h2 : d * (a / d) + a % d = a := Int.ediv_add_emod a d
  have h3 : a / d * c ≤ a / d * d :=
    mul_le_mul_of_nonneg_left hcd (Int.ediv_nonneg ha hd.le)
  have h4 : a / d * d ≤ a := by rw [mul_comm]; omega
  omega

lemma tdiv_le_tdiv_den {a c d : Int} (ha : 0 ≤ a) (hc : 0 < c) (hcd : c ≤ d) :
    a.tdiv d ≤ a.tdiv c := by
  have hd : 0 < d := lt_of_lt_of_le hc hcd
  rw [Int.tdiv_eq_ediv ha hc.le, Int.tdiv_eq_ediv ha hd.le]
  exact ediv_le_ediv_den ha hc hcd

lemma tdiv_le_tdiv_num {a b c : Int} (ha : 0 ≤ a) (hab : a ≤ b) (hc : 0 < c) :
    a.tdiv c ≤ b.tdiv c := by
  rw [Int.tdiv_eq_ediv ha hc.le, Int.tdiv_eq_ediv (le_trans ha hab) hc.le]
  exact Int.ediv_le_ediv hc hab

end MeasureMonotone

/-- C6 (amended): monotonicity survives at the level of a single measured
block, not of the page count.  First conjunct: for any font system, text and
font, `_measure_text_height` is non-increasing in its width argument (the
wrap width `page_width - 80`, increasing in the page width), given that the
measured pixel width and the line height are non-negative.  Second conjunct:
it is non-decreasing in the font size whenever the font metrics (`linespace`
and `measure`) are non-decreasing between the two resulting fonts.  Neither
direction lifts to `total_pages`: the counterexample shows the page count
dropping at a larger font size (non-monotone metrics) and at a larger page
width (fixed metrics). -/
theorem c6_measure_monotone (F : FontSys) (t fam : String) (hdr : Bool) :
    (∀ fs w1 w2 : Int, 0 < w2 → w2 ≤ w1 →
        0 ≤ F.measure (mkFont fam fs hdr) t →
        0 ≤ F.linespace (mkFont fam fs hdr) →
        measureTextHeight F t fam fs w1 hdr ≤ measureTextHeight F t fam fs w2 hdr) ∧
    (∀ fs1 fs2 w : Int, 0 < w →
        0 ≤ F.measure (mkFont fam fs1 hdr) t →
        F.measure (mkFont fam fs1 hdr) t ≤ F.measure (mkFont fam fs2 hdr) t →
        0 ≤ F.linespace (mkFont fam fs1 hdr) →
        F.linespace (mkFont fam fs1 hdr) ≤ F.linespace (mkFont fam fs2 hdr) →
        measureTextHeight F t fam fs1 w hdr ≤ measureTextHeight F t fam fs2 w hdr) := by
  constructor
  · intro fs w1 w2 hw2 hle hm hl
    simp only [measureTextHeight]
    have htp : (0 : Int) ≤ F.measure (mkFont fam fs hdr) t * 108 :=
      mul_nonneg hm (by norm_num)
    have hden : (0 : Int) < w2 * 100 := by positivity
    have hdle : w2 * 100 ≤ w1 * 100 := by nlinarith
    have hdiv := tdiv_le_tdiv_den htp hden hdle
    have hnum : max 1 (Int.tdiv (F.measure (mkFont fam fs hdr) t * 108) (w1 * 100) + 1) ≤
        max 1 (Int.tdiv (F.measure (mkFont fam fs hdr) t * 108) (w2 * 100) + 1) :=
      max_le_max le_rfl (by omega)
    exact mul_le_mul_of_nonneg_right (max_le_max hnum le_rfl) hl
  · intro fs1 fs2 w hw hm1 hm hl1 hl
    simp only [measureTextHeight]
    have htp : (0 : Int) ≤ F.measure (mkFont fam fs1 hdr) t * 108 :=
      mul_nonneg hm1 (by norm_num)
    have htple : F.measure (mkFont fam fs1 hdr) t * 108 ≤
        F.measure (mkFont fam fs2 hdr) t * 108 := by nlinarith
    have hden : (0 : Int) < w * 100 := by positivity
    have hdiv := tdiv_le_tdiv_num htp htple hden
    have hnum : max 1 (Int.tdiv (F.measure (mkFont fam fs1 hdr) t * 108) (w * 100) + 1) ≤
        max 1 (Int.tdiv (F.measure (mkFont fam fs2 hdr) t * 108) (w * 100) + 1) :=
      max_le_max le_rfl (by omega)
    have hb : (0 : Int) ≤
        max (max 1 (Int.tdiv (F.measure (mkFont fam fs2 hdr) t * 108) (w * 100) + 1))
          ((pyCountChar t '\n' : Int) + 1) :=
      le_trans (by norm_num) (le_trans (le_max_left _ _) (le_max_left _ _))
    exact mul_le_mul (max_le_max hnum le_rfl) hl hl1 hb

/-- C6 (witness): with `demoSys` (20px lines, 30px characters, both
size-independent) the measured height of the 100-character paragraph at
width 320 is at least its height at width 400, and its height at 26pt is at
least its height at 14pt. -/
theorem c6_witness :
    measureTextHeight demoSys a100 "Georgia" 18 400 false ≤
      measureTextHeight demoSys a100 "Georgia" 18 320 false ∧
    measureTextHeight demoSys a100 "Georgia" 14 400 false ≤
      measureTextHeight demoSys a100 "Georgia" 26 400 false :=
  ⟨(c6_measure_monotone demoSys a100 "Georgia" false).1 18 400 320
      (by decide) (by decide) (by decide) (by decide),
    (c6_measure_monotone demoSys a100 "Georgia" false).2 14 26 400
      (by decide) (by decide) (by decide) (by decide) (by decide)⟩

section TocLemmas

lemma getLast?_cons_or {α : Type} (a : α) (l : List α) :
    (a :: l).getLast? = l.getLast?.or (some a) := by
  cases l with
  | nil => rfl
  | cons b l' =>
    rw [List.getLast?_cons_cons]
    have hs : (b :: l').getLast?.isSome := by
      simp [List.getLast?_isSome]
    obtain ⟨y, hy⟩ := Option.isSome_iff_exists.1 hs
    rw [hy]
    rfl

lemma lookup_cons_pair (a k : String) (v : Nat) (l : List (String × Nat)) :
    ((k, v) :: l).lookup a = if a = k then some v else l.lookup a := by
  by_cases h : a = k
  · subst h
    simp
  · have hb : (a == k) = false := by simpa using h
    rw [List.lookup_cons, hb, if_neg h]

lemma lookup_map_ne (m : List (String × Nat)) (k : String) (v : Nat) (t : String)
    (hne : t ≠ k) :
    (m.map (fun p => if p.1 == k then (k, v) else p)).lookup t = m.lookup t := by
  induction m with
  | nil => rfl
  | cons p rest ih =>
    rcases p with ⟨pk, pv⟩
    simp only [List.map_cons]
    by_cases hpk : pk = k
    · rw [if_pos (by simpa using hpk)]
      rw [lookup_cons_pair, lookup_cons_pair, if_neg hne, if_neg (by rw [hpk]; exact hne)]
      exact ih
    · rw [if_neg (by simpa using hpk)]
      rw [lookup_cons_pair, lookup_cons_pair]
      by_cases hteq : t = pk
      · rw [if_pos hteq, if_pos hteq]
      · rw [if_neg hteq, if_neg hteq]
        exact ih

lemma lookup_map_eq (m : List (String × Nat)) (k : String) (v : Nat)
    (hany : m.any (fun p => p.1 == k) = true) :
    (m.map (fun p => if p.1 == k then (k, v) else p)).lookup k = some v := by
  induction m with
  | nil => simp at hany
  | cons p rest ih =>
    rcases p with ⟨pk, pv⟩
    simp only [List.map_cons]
    by_cases hpk : pk = k
    · rw [if_pos (by simpa using hpk)]
      rw [lookup_cons_pair, if_pos rfl]
    · rw [if_neg (by simpa using hpk)]
      rw [lookup_cons_pair, if_neg (fun h => hpk h.symm)]
      apply ih
      simp only [List.any_cons] at hany
      rcases Bool.or_eq_true_iff.1 hany with h | h
      · exact absurd (by simpa using h) hpk
      · exact h

lemma lookup_append_fresh (m : List (String × Nat)) (k : String) (v : Nat) (t : String)
    (hany : m.any (fun p => p.1 == k) = false) :
    (m ++ [(k, v)]).lookup t = if t = k then some v else m.lookup t := by
  rw [List.lookup_append]
  by_cases h : t = k
  · subst h
    have hnone : m.lookup t = none := by
      rw [List.lookup_eq_none_iff]
      intro p hp
      have : (p.1 == t) = false := by
        have := List.any_eq_false.1 hany p hp
        simpa using this
      have hne : ¬ p.1 = t := by simpa using this
      simpa using fun hh => hne hh.symm
    rw [hnone]
    simp
  · have hone : ([(k, v)] : List (String × Nat)).lookup t = none := by
      rw [lookup_cons_pair, if_neg h]
      rfl
    rw [hone, if_neg h]
    cases m.lookup t <;> rfl

lemma lookup_dictInsert (m : List (String × Nat)) (k : String) (v : Nat) (t : String) :
    (dictInsert m k v).lookup t = if t = k then some v else m.lookup t := by
  unfold dictInsert
  split_ifs with hany hk hk
  · rw [hk]
    exact lookup_map_eq m k v hany
  · exact lookup_map_ne m k v t hk
  · have hany' : m.any (fun p => p.1 == k) = false := by
      simp only [Bool.not_eq_true] at hany
      exact hany
    rw [hk, lookup_append_fresh m k v k hany', if_pos rfl]
  · have hany' : m.any (fun p => p.1 == k) = false := by
      simp only [Bool.not_eq_true] at hany
      exact hany
    rw [lookup_append_fresh m k v t hany', if_neg hk]

lemma lookup_headerStepFold (page_idx : Nat) :
    ∀ (page : List Item) (m : List (String × Nat)) (t : String),
      ((page.foldl (headerStep page_idx) m).lookup t) =
        if t ∈ headerTextsOfPage page then some page_idx else m.lookup t := by
  intro page
  induction page with
  | nil => intro m t; simp [headerTextsOfPage]
  | cons it rest ih =>
    intro m t
    simp only [List.foldl_cons]
    rw [ih]
    cases it with
    | text t' hb lv lk =>
      cases hb with
      | false => simp [headerStep, headerTextsOfPage]
      | true =>
        simp only [headerStep]
        rw [lookup_dictInsert]
        have hmem : (t ∈ headerTextsOfPage (Item.text t' true lv lk :: rest)) ↔
            (t = t' ∨ t ∈ headerTextsOfPage rest) := by
          simp [headerTextsOfPage]
        by_cases h1 : t ∈ headerTextsOfPage rest
        · rw [if_pos h1, if_pos (hmem.2 (Or.inr h1))]
        · rw [if_neg h1]
          by_cases h2 : t = t'
          · rw [if_pos h2, if_pos (hmem.2 (Or.inl h2))]
          · have hno : ¬ t ∈ headerTextsOfPage (Item.text t' true lv lk :: rest) := by
              rw [hmem]
              tauto
            rw [if_neg h2, if_neg hno]
    | chunk t' hb =>
      cases hb with
      | false => simp [headerStep, headerTextsOfPage]
      | true =>
        simp only [headerStep]
        rw [lookup_dictInsert]
        have hmem : (t ∈ headerTextsOfPage (Item.chunk t' true :: rest)) ↔
            (t = t' ∨ t ∈ headerTextsOfPage rest) := by
          simp [headerTextsOfPage]
        by_cases h1 : t ∈ headerTextsOfPage rest
        · rw [if_pos h1, if_pos (hmem.2 (Or.inr h1))]
        · rw [if_neg h1]
          by_cases h2 : t = t'
          · rw [if_pos h2, if_pos (hmem.2 (Or.inl h2))]
          · have hno : ¬ t ∈ headerTextsOfPage (Item.chunk t' true :: rest) := by
              rw [hmem]
              tauto
            rw [if_neg h2, if_neg hno]
    | image im => simp [headerStep, headerTextsOfPage]
    | link t' u => simp [headerStep, headerTextsOfPage]

lemma lookup_headerFold :
    ∀ (l : List (Nat × List Item)) (m : List (String × Nat)) (t : String),
      ((l.foldl (fun m pg => pg.2.foldl (headerStep pg.1) m) m).lookup t) =
        (((l.filter (fun pg => decide (t ∈ headerTextsOfPage pg.2))).map
          Prod.fst).getLast?).or (m.lookup t) := by
  intro l
  induction l with
  | nil => intro m t; simp
  | cons pg rest ih =>
    intro m t
    simp only [List.foldl_cons]
    rw [ih]
    rw [lookup_headerStepFold]
    by_cases hmem : t ∈ headerTextsOfPage pg.2
    · rw [if_pos hmem]
      rw [List.filter_cons_of_pos (by simpa using hmem)]
      rw [List.map_cons, getLast?_cons_or]
      cases hx : ((rest.filter (fun pg => decide (t ∈ headerTextsOfPage pg.2))).map
          Prod.fst).getLast? <;> simp [Option.or]
    · rw [if_neg hmem]
      rw [List.filter_cons_of_neg (by simpa using hmem)]

lemma lookup_headerToPage (pages : List (List Item)) (t : String) :
    (headerToPage pages).lookup t = lastPageWithHeader pages t := by
  unfold headerToPage lastPageWithHeader
  rw [lookup_headerFold]
  cases hx : ((pages.enum.filter (fun pg => decide (t ∈ headerTextsOfPage pg.2))).map
      Prod.fst).getLast? <;> simp [Option.or, List.lookup]

end TocLemmas

/-- C7 (amended): `_update_toc_page_indices` rewrites exactly the entries of
the flat top-level list: an entry whose stripped title matches the text of a
header block on some page gets the index of the *last* such page (later dict
writes overwrite earlier ones), and every other entry — including all nested
children of header-synthesized TOCs, which are absent from the flat list —
keeps its construction-time `page_index`. -/
theorem c7_update_toc_spec (entries : List TocEntry) (pages : List (List Item)) :
    updateTocPageIndices entries pages =
      entries.map (fun e =>
        match lastPageWithHeader pages (pyStrip e.title) with
        | some p => e.withPage p
        | none => e) := by
  unfold updateTocPageIndices
  rcases hp : pages with _ | ⟨pg, rest⟩
  · rcases he : entries with _ | ⟨e, es⟩
    · simp
    · simp only [List.isEmpty_cons, Bool.or_false, List.isEmpty_nil, Bool.or_true,
        if_true]
      have : ∀ t, lastPageWithHeader [] t = none := by
        intro t
        simp [lastPageWithHeader]
      rw [List.map_congr_left (fun e _ => by rw [this (pyStrip e.title)])]
      simp
  · rcases he : entries with _ | ⟨e, es⟩
    · simp
    · simp only [List.isEmpty_cons, Bool.false_or, if_false]
      apply List.map_congr_left
      intro e' _
      rw [lookup_headerToPage]

lemma ceil_half_nat (n : Nat) : ⌈(n : ℚ) / 2⌉ = ((n + 1) / 2 : Nat) := by
  rcases Nat.even_or_odd n with ⟨k, hk⟩ | ⟨k, hk⟩
  · subst hk
    have h1 : ((k + k : ℕ) : ℚ) / 2 = (k : ℚ) := by
      push_cast
      ring
    rw [h1]
    have h2 : (k + k + 1) / 2 = k := by omega
    rw [h2]
    exact_mod_cast Int.ceil_natCast k
  · subst hk
    have h1 : ((2 * k + 1 : ℕ) : ℚ) / 2 = (k : ℚ) + 1 / 2 := by
      push_cast
      ring
    rw [h1]
    have h2 : (2 * k + 1 + 1) / 2 = k + 1 := by omega
    rw [h2]
    have h3 : ⌈(k : ℚ) + 1 / 2⌉ = (k : ℤ) + 1 := by
      rw [Int.ceil_eq_iff]
      constructor
      · push_cast
        linarith
      · push_cast
        linarith
    rw [h3]
    push_cast
    ring

lemma specMaxSpread_eq (n : Nat) : specMaxSpread n = (n + 1) / 2 - 1 := by
  unfold specMaxSpread
  rw [ceil_half_nat]
  omega

/-- C8 (amended): for slider values `v ∈ [0, 100]` the handler maps to
`⌊v/100 × max_spread⌋` — truncation, not rounding — when
`max_spread = ceil(total_pages/2) − 1 > 0`, and to 0 otherwise. -/
theorem c8_slider_floor (v : ℚ) (n : Nat) (h0 : 0 ≤ v) :
    onSliderChange v n =
      if 0 < specMaxSpread n then ⌊v / 100 * (specMaxSpread n : ℚ)⌋ else 0 := by
  rw [specMaxSpread_eq]
  unfold onSliderChange
  by_cases h : 1 < (n + 1) / 2
  · rw [if_pos h, if_pos (by omega)]
    have hnum : 0 ≤ v.num := Rat.num_nonneg.2 h0
    have hts : (0 : ℤ) ≤ ((n + 1) / 2 : Nat) - 1 := by
      have : 1 ≤ (n + 1) / 2 := by omega
      omega
    have hden : (0 : ℤ) ≤ (v.den : ℤ) * 100 := by positivity
    rw [Int.tdiv_eq_ediv (mul_nonneg hnum hts) hden]
    have hcast : (((n + 1) / 2 - 1 : ℕ) : ℚ) = (((n + 1) / 2 : ℕ) : ℚ) - 1 := by
      have : 1 ≤ (n + 1) / 2 := by omega
      push_cast [this]
      ring
    rw [hcast]
    have hdq : ((v.den : ℚ)) ≠ 0 := by
      rw [Nat.cast_ne_zero]
      exact v.den_nz
    have hvd : v * (v.den : ℚ) = (v.num : ℚ) := by
      nth_rewrite 1 [← Rat.num_div_den v]
      exact div_mul_cancel₀ _ hdq
    have hden2 : ((v.den * 100 : ℕ) : ℚ) ≠ 0 := by
      rw [Nat.cast_ne_zero]
      exact Nat.mul_ne_zero v.den_nz (by norm_num)
    have hv : v / 100 * ((((n + 1) / 2 : ℕ) : ℚ) - 1) =
        ((v.num * ((((n + 1) / 2 : Nat) : ℤ) - 1) : ℤ) : ℚ) / ((v.den * 100 : ℕ) : ℚ) := by
      rw [eq_div_iff hden2]
      push_cast
      have hstep : v / 100 * ((((n + 1) / 2 : ℕ) : ℚ) - 1) * ((v.den : ℚ) * 100) =
          v * (v.den : ℚ) * ((((n + 1) / 2 : ℕ) : ℚ) - 1) := by ring
      rw [hstep, hvd]
      norm_cast
    rw [hv, Rat.floor_intCast_div_natCast]
    have hd3 : ((v.den * 100 : ℕ) : ℤ) = (v.den : ℤ) * 100 := by
      push_cast
      ring
    rw [hd3]
  · rw [if_neg h, if_neg (by omega)]

/-- C8 (witness): 7 pages give 4 spreads, `max_spread = 3`, and value 75
maps to `int(0.75 × 3) = 2`. -/
theorem c8_witness :
    onSliderChange 75 7 =
      if 0 < specMaxSpread 7 then ⌊(75 : ℚ) / 100 * (specMaxSpread 7 : ℚ)⌋ else 0 :=
  c8_slider_floor 75 7 (by norm_num)
